import Mathlib

/-
Verification of the tree-object subsystem (libgit2 `src/git/tree.h`).

The repository ships only the public header `src/git/tree.h`; the routine
bodies are not part of the sources.  Following the specification, the
operations are therefore modelled from the spec (each such definition says
so in its doc comment), while the C declarations themselves (return types
of the API) are embedded directly from the header.

Bytes are modelled as natural numbers below 256; a byte buffer is a
`List Nat`; an object identity ("oid") is a list of 20 bytes.
-/

namespace GitSpec

/-- Error kinds of the tree subsystem, as listed in spec section 7. -/
inductive GitError where
  | InvalidArgument
  | InvalidMode
  | DuplicateName
  | NotFound
  | Corrupt
  | ResolutionMismatch
  deriving DecidableEq, Repr

/-- Decidable equality on `Except`, needed to evaluate codec results on
concrete inputs. -/
instance {ε α : Type} [DecidableEq ε] [DecidableEq α] : DecidableEq (Except ε α) := fun x y =>
  match x, y with
  | Except.ok a, Except.ok b =>
    if h : a = b then isTrue (by rw [h]) else isFalse (by intro hc; cases hc; exact h rfl)
  | Except.error a, Except.error b =>
    if h : a = b then isTrue (by rw [h]) else isFalse (by intro hc; cases hc; exact h rfl)
  | Except.ok _, Except.error _ => isFalse (by intro hc; cases hc)
  | Except.error _, Except.ok _ => isFalse (by intro hc; cases hc)

/-- Modelled from the spec (section 3, tree.c body is not in the sources):
one directory entry of a tree: raw name bytes, file mode, 20-byte target
identity.  The owner back-link of the C struct is represented by passing
the owning tree explicitly to the entry mutators, as the spec's design
notes suggest. -/
structure git_tree_entry where
  filename : List Nat
  attributes : Nat
  oid : List Nat
  deriving DecidableEq, Repr

/-- Modelled from the spec (section 3): a tree object: ordered entry list,
optional cached identity, dirty flag. -/
structure git_tree where
  entries : List git_tree_entry
  identity : Option (List Nat)
  dirty : Bool
  deriving DecidableEq, Repr

/-- Modelled from the spec (sections 3 and 6): the closed set of valid
modes, written in decimal: 16384 = octal 40000 (directory), 33188 = octal
100644 (regular file), 33261 = octal 100755 (executable), 40960 = octal
120000 (symbolic link), 57344 = octal 160000 (embedded repository). -/
def validMode (m : Nat) : Bool :=
  m == 16384 || m == 33188 || m == 33261 || m == 40960 || m == 57344

/-- Modelled from the spec (section 3): a valid entry name is a non-empty
byte sequence containing no null byte and no path separator byte 47. -/
def validName (name : List Nat) : Bool :=
  !name.isEmpty && name.all (fun b => !(b == 0) && !(b == 47) && decide (b < 256))

/-- Modelled from the spec (section 3): the comparison key of an entry: a
directory-mode entry compares as if its name had a trailing separator
appended. -/
def sortKey (e : git_tree_entry) : List Nat :=
  if e.attributes == 16384 then e.filename ++ [47] else e.filename

/-- Lexicographic (memcmp-style) strict comparison of byte sequences. -/
def bytesLt : List Nat → List Nat → Bool
  | [], [] => false
  | [], _ :: _ => true
  | _ :: _, [] => false
  | a :: as, b :: bs => if a < b then true else if b < a then false else bytesLt as bs

/-- Modelled from the spec (section 3): the strict order on entries used
to keep a tree canonically sorted. -/
def entryLt (a b : git_tree_entry) : Bool :=
  bytesLt (sortKey a) (sortKey b)

/-- Consecutive strict sortedness of an entry list under `entryLt`. -/
def sortedStrict : List git_tree_entry → Bool
  | [] => true
  | [_] => true
  | a :: b :: rest => entryLt a b && sortedStrict (b :: rest)

/-- Consecutive non-decreasing sortedness of keys, the check decode
performs (spec section 4.3, rule 4). -/
def keysSorted : List git_tree_entry → Bool
  | [] => true
  | [_] => true
  | a :: b :: rest => !bytesLt (sortKey b) (sortKey a) && keysSorted (b :: rest)

/-- No two entries of the list share a name (all pairs). -/
def nodup_names : List git_tree_entry → Bool
  | [] => true
  | e :: rest => rest.all (fun x => !(x.filename == e.filename)) && nodup_names rest

/-- Well-formedness invariant of a tree's entry list: strictly sorted per
the spec's ordering rule, no duplicate names, and every name valid. -/
def treeWFb (l : List git_tree_entry) : Bool :=
  sortedStrict l && nodup_names l && l.all (fun e => validName e.filename)

/-- Minimal octal digit emission, accumulator formed, fuel bounded; the
fuel `n + 1` always suffices since the value shrinks by a factor 8 each
step. -/
def octalDigitsAux : Nat → Nat → List Nat → List Nat
  | 0, _, acc => acc
  | fuel + 1, n, acc =>
    if n < 8 then (48 + n % 8) :: acc
    else octalDigitsAux fuel (n / 8) ((48 + n % 8) :: acc)

/-- Modelled from the spec (section 4.4): the minimal, non-zero-padded
ASCII octal representation of a mode. -/
def octalMinimal (n : Nat) : List Nat :=
  octalDigitsAux (n + 1) n []

/-- An ASCII octal digit byte. -/
def isOctalDigit (b : Nat) : Bool :=
  48 ≤ b && b ≤ 55

/-- Numeric value of a string of ASCII octal digits. -/
def octalValue (l : List Nat) : Nat :=
  l.foldl (fun acc d => acc * 8 + (d - 48)) 0

/-- Modelled from the spec (sections 4.4 and 6): one encoded record:
minimal octal mode, space (32), raw name bytes, null terminator, 20 raw
identity bytes. -/
def encodeRecord (e : git_tree_entry) : List Nat :=
  octalMinimal e.attributes ++ 32 :: (e.filename ++ 0 :: e.oid)

/-- Modelled from the spec (section 4.4): records concatenated in entry
order with no separators or padding. -/
def git_tree_encode (l : List git_tree_entry) : List Nat :=
  match l with
  | [] => []
  | e :: rest => encodeRecord e ++ git_tree_encode rest

/-- Modelled from the spec (section 4.3): parse one record off the front
of the buffer; every structural violation is `Corrupt`. -/
def parseRecord (buf : List Nat) : Except GitError (git_tree_entry × List Nat) :=
  match buf.dropWhile (fun b => !(b == 32)) with
  | [] => Except.error GitError.Corrupt
  | _ :: afterSp =>
    if !((buf.takeWhile (fun b => !(b == 32))).all isOctalDigit) then
      Except.error GitError.Corrupt
    else if !(validMode (octalValue (buf.takeWhile (fun b => !(b == 32))))) then
      Except.error GitError.Corrupt
    else
      match afterSp.dropWhile (fun b => !(b == 0)) with
      | [] => Except.error GitError.Corrupt
      | _ :: afterNul =>
        if (afterSp.takeWhile (fun b => !(b == 0))).isEmpty then
          Except.error GitError.Corrupt
        else if afterNul.length < 20 then Except.error GitError.Corrupt
        else
          Except.ok (⟨afterSp.takeWhile (fun b => !(b == 0)),
            octalValue (buf.takeWhile (fun b => !(b == 32))),
            afterNul.take 20⟩, afterNul.drop 20)

/-- Modelled from the spec (section 4.3): parse records until the buffer
is exhausted.  The fuel is only a termination device: each parsed record
strictly shrinks the buffer, so fuel equal to the buffer length never runs
out. -/
def decodeRecords : Nat → List Nat → Except GitError (List git_tree_entry)
  | _, [] => Except.ok []
  | 0, _ :: _ => Except.error GitError.Corrupt
  | fuel + 1, b :: bs =>
    match parseRecord (b :: bs) with
    | Except.error e => Except.error e
    | Except.ok (ent, rest) =>
      match decodeRecords fuel rest with
      | Except.error e => Except.error e
      | Except.ok l => Except.ok (ent :: l)

/-- Modelled from the spec (section 4.3): full decode of a tree body:
parse all records, then reject duplicate names and keys out of
non-decreasing order as `Corrupt`. -/
def decodeEntries (buf : List Nat) : Except GitError (List git_tree_entry) :=
  match decodeRecords buf.length buf with
  | Except.error e => Except.error e
  | Except.ok l =>
    if nodup_names l && keysSorted l then Except.ok l
    else Except.error GitError.Corrupt

/-- Modelled from the spec (section 4.3): successful decode yields a clean
tree carrying the caller-supplied identity; decode never hashes. -/
def git_tree_decode (buf : List Nat) (id : List Nat) : Except GitError git_tree :=
  match decodeEntries buf with
  | Except.error e => Except.error e
  | Except.ok l => Except.ok { entries := l, identity := some id, dirty := false }

/-- Modelled from the spec (section 3): a brand-new in-memory tree: no
entries, no identity. -/
def git_tree_new : git_tree :=
  { entries := [], identity := none, dirty := false }

/-- Modelled from the spec (section 4.2): number of entries. -/
def git_tree_entrycount (t : git_tree) : Nat :=
  t.entries.length

/-- Modelled from the spec (section 4.2): the cached identity, possibly
absent or stale. -/
def git_tree_id (t : git_tree) : Option (List Nat) :=
  t.identity

/-- Modelled from the spec (section 4.2): lookup by exact name, not-found
as `none`. -/
def git_tree_entry_byname (t : git_tree) (name : List Nat) : Option git_tree_entry :=
  t.entries.find? (fun e => e.filename == name)

/-- Modelled from the spec (section 4.2): lookup by position, bounds
checked exactly at `[0, entrycount)`; the header declares the index as a C
`int`. -/
def git_tree_entry_byindex (t : git_tree) (idx : Int) : Option git_tree_entry :=
  if 0 ≤ idx then t.entries.get? idx.toNat else none

/-- Insertion of an entry at the position dictated by the ordering rule. -/
def insertEntry (e : git_tree_entry) : List git_tree_entry → List git_tree_entry
  | [] => [e]
  | x :: xs => if entryLt e x then e :: x :: xs else x :: insertEntry e xs

/-- Modelled from the spec (section 4.2): `add_entry` validates name and
mode, rejects duplicate names, and otherwise inserts at the sorted
position, marking the tree dirty and clearing the cached identity. -/
def git_tree_add_entry (t : git_tree) (id : List Nat) (filename : List Nat)
    (attrs : Nat) : Except GitError git_tree :=
  if !(validName filename) then Except.error GitError.InvalidArgument
  else if !(validMode attrs) then Except.error GitError.InvalidMode
  else if t.entries.any (fun e => e.filename == filename) then
    Except.error GitError.DuplicateName
  else
    Except.ok { entries := insertEntry ⟨filename, attrs, id⟩ t.entries,
                identity := none, dirty := true }

/-- Modelled from the spec (section 4.2): removal by position; out-of-range
indices fail with `NotFound`. -/
def git_tree_remove_entry_byindex (t : git_tree) (idx : Int) : Except GitError git_tree :=
  if 0 ≤ idx ∧ idx.toNat < t.entries.length then
    Except.ok { entries := t.entries.eraseIdx idx.toNat, identity := none, dirty := true }
  else Except.error GitError.NotFound

/-- Modelled from the spec (section 4.2): removal by name; an absent name
fails with `NotFound`. -/
def git_tree_remove_entry_byname (t : git_tree) (name : List Nat) : Except GitError git_tree :=
  match t.entries.findIdx? (fun e => e.filename == name) with
  | none => Except.error GitError.NotFound
  | some i => Except.ok { entries := t.entries.eraseIdx i, identity := none, dirty := true }

/-- Modelled from the spec (section 4.1): overwrite an entry's identity and
mark the owning tree dirty; the entry is designated by its index in the
owning tree, per the spec's design note on owner back-references. -/
def set_id_checked (t : git_tree) (idx : Nat) (o : List Nat) : Except GitError git_tree :=
  match t.entries.get? idx with
  | none => Except.error GitError.NotFound
  | some e =>
    Except.ok { entries := t.entries.set idx { e with oid := o },
                identity := none, dirty := true }

/-- Modelled from the spec (section 4.1): overwrite an entry's mode and
mark the owning tree dirty. -/
def set_attributes_checked (t : git_tree) (idx : Nat) (a : Nat) : Except GitError git_tree :=
  match t.entries.get? idx with
  | none => Except.error GitError.NotFound
  | some e =>
    Except.ok { entries := t.entries.set idx { e with attributes := a },
                identity := none, dirty := true }

/-- Modelled from the spec (section 4.1): rename an entry, re-sorting by
remove-and-reinsert; a name colliding with another entry's name is
rejected (the spec requires rejection to preserve uniqueness). -/
def set_name_checked (t : git_tree) (idx : Nat) (name : List Nat) : Except GitError git_tree :=
  match t.entries.get? idx with
  | none => Except.error GitError.NotFound
  | some e =>
    if (t.entries.eraseIdx idx).any (fun x => x.filename == name) then
      Except.error GitError.DuplicateName
    else
      Except.ok { entries := insertEntry { e with filename := name } (t.entries.eraseIdx idx),
                  identity := none, dirty := true }

/-- The C function `git_tree_entry_set_id` is declared `void`: failures
cannot be reported, so a failing call leaves the tree as it was. -/
def git_tree_entry_set_id (t : git_tree) (idx : Nat) (o : List Nat) : git_tree :=
  match set_id_checked t idx o with
  | Except.ok r => r
  | Except.error _ => t

/-- The C function `git_tree_entry_set_name` is declared `void`: failures
(such as a name collision) cannot be reported, so a failing call leaves
the tree as it was. -/
def git_tree_entry_set_name (t : git_tree) (idx : Nat) (name : List Nat) : git_tree :=
  match set_name_checked t idx name with
  | Except.ok r => r
  | Except.error _ => t

/-- The C function `git_tree_entry_set_attributes` is declared `void`:
failures cannot be reported, so a failing call leaves the tree as it
was. -/
def git_tree_entry_set_attributes (t : git_tree) (idx : Nat) (a : Nat) : git_tree :=
  match set_attributes_checked t idx a with
  | Except.ok r => r
  | Except.error _ => t

/-- Modelled from the spec (section 4.5): an explicit write encodes the
current entries, stores them through the external resolver (abstracted as
a function from buffers to identities), adopts the returned identity and
clears the dirty flag. -/
def git_object_write (t : git_tree) (store : List Nat → List Nat) : git_tree :=
  { entries := t.entries, identity := some (store (git_tree_encode t.entries)),
    dirty := false }

/-- One mutating call of the tree API (spec sections 4.1 and 4.2). -/
inductive TreeMutation where
  | add (id : List Nat) (filename : List Nat) (attrs : Nat)
  | removeIdx (idx : Int)
  | removeName (name : List Nat)
  | setId (idx : Nat) (o : List Nat)
  | setName (idx : Nat) (name : List Nat)
  | setAttr (idx : Nat) (a : Nat)
  deriving DecidableEq, Repr

/-- The effect of a mutating call, with its error outcome. -/
def applyMutation : TreeMutation → git_tree → Except GitError git_tree
  | TreeMutation.add id filename attrs, t => git_tree_add_entry t id filename attrs
  | TreeMutation.removeIdx idx, t => git_tree_remove_entry_byindex t idx
  | TreeMutation.removeName name, t => git_tree_remove_entry_byname t name
  | TreeMutation.setId idx o, t => set_id_checked t idx o
  | TreeMutation.setName idx name, t => set_name_checked t idx name
  | TreeMutation.setAttr idx a, t => set_attributes_checked t idx a

/-- The state after a call: the new tree on success, the unchanged tree on
failure (a failed mutation is not observable, spec section 7). -/
def applyOp (m : TreeMutation) (t : git_tree) : git_tree :=
  match applyMutation m t with
  | Except.ok r => r
  | Except.error _ => t

/-- The state after a whole sequence of calls. -/
def applyOps (ops : List TreeMutation) (t : git_tree) : git_tree :=
  ops.foldl (fun acc m => applyOp m acc) t

/-- Whether a mutation is one of the entry-list calls `add_entry`,
`remove_entry_byindex`, `remove_entry_byname`. -/
def isEntryListOp : TreeMutation → Bool
  | TreeMutation.add _ _ _ => true
  | TreeMutation.removeIdx _ => true
  | TreeMutation.removeName _ => true
  | _ => false

/-- Return types of the C declarations in `src/git/tree.h`. -/
inductive CReturnType where
  | void
  | int
  | uint
  | sizeT
  | pointer
  deriving DecidableEq, Repr

/-- Return type of `git_tree_add_entry` as declared in the header. -/
def git_tree_add_entry_ret : CReturnType := CReturnType.int

/-- Return type of `git_tree_remove_entry_byindex` as declared in the header. -/
def git_tree_remove_entry_byindex_ret : CReturnType := CReturnType.int

/-- Return type of `git_tree_remove_entry_byname` as declared in the header. -/
def git_tree_remove_entry_byname_ret : CReturnType := CReturnType.int

/-- Return type of `git_tree_entry_set_id` as declared in the header. -/
def git_tree_entry_set_id_ret : CReturnType := CReturnType.void

/-- Return type of `git_tree_entry_set_name` as declared in the header. -/
def git_tree_entry_set_name_ret : CReturnType := CReturnType.void

/-- Return type of `git_tree_entry_set_attributes` as declared in the header. -/
def git_tree_entry_set_attributes_ret : CReturnType := CReturnType.void

/-- A C function can report a failure through its return value only when
it returns a status or pointer-like value, never when it returns void. -/
def canReportFailure : CReturnType → Bool
  | CReturnType.void => false
  | _ => true

/-- The comparison `bytesLt` is irreflexive. -/
theorem bytesLt_irrefl (a : List Nat) : bytesLt a a = false := by
  induction a with
  | nil => rfl
  | cons x xs ih => simp [bytesLt, ih]

/-- The comparison `bytesLt` is asymmetric. -/
theorem bytesLt_asymm : ∀ {a b : List Nat}, bytesLt a b = true → bytesLt b a = false
  | [], [], h => by simp [bytesLt] at h
  | [], _ :: _, _ => by simp [bytesLt]
  | _ :: _, [], h => by simp [bytesLt] at h
  | x :: xs, y :: ys, h => by
    simp only [bytesLt] at h ⊢
    rcases Nat.lt_trichotomy x y with hlt | heq | hgt
    · simp [hlt, Nat.lt_asymm hlt]
    · subst heq
      simp only [Nat.lt_irrefl, if_false] at h ⊢
      exact bytesLt_asymm h
    · simp [hgt, Nat.lt_asymm hgt] at h

/-- The comparison `bytesLt` is transitive. -/
theorem bytesLt_trans : ∀ {a b c : List Nat},
    bytesLt a b = true → bytesLt b c = true → bytesLt a c = true
  | [], [], _, h, _ => by simp [bytesLt] at h
  | [], _ :: _, [], _, h2 => by simp [bytesLt] at h2
  | [], _ :: _, _ :: _, _, _ => by simp [bytesLt]
  | _ :: _, [], _, h, _ => by simp [bytesLt] at h
  | _ :: _, _ :: _, [], _, h2 => by simp [bytesLt] at h2
  | x :: xs, y :: ys, z :: zs, h1, h2 => by
    simp only [bytesLt] at h1 h2 ⊢
    rcases Nat.lt_trichotomy x y with hxy | hxy | hxy
    · rcases Nat.lt_trichotomy y z with hyz | hyz | hyz
      · simp [Nat.lt_trans hxy hyz]
      · subst hyz; simp [hxy]
      · simp [Nat.lt_asymm hyz, hyz] at h2
    · subst hxy
      simp only [Nat.lt_irrefl, if_false] at h1
      rcases Nat.lt_trichotomy x z with hxz | hxz | hxz
      · simp [hxz]
      · subst hxz
        simp only [Nat.lt_irrefl, if_false] at h2 ⊢
        exact bytesLt_trans h1 h2
      · simp [Nat.lt_asymm hxz, hxz] at h2
    · simp [Nat.lt_asymm hxy, hxy] at h1

/-- Two byte sequences incomparable under `bytesLt` are equal. -/
theorem bytesLt_conn : ∀ {a b : List Nat},
    bytesLt a b = false → bytesLt b a = false → a = b
  | [], [], _, _ => rfl
  | [], _ :: _, h1, _ => by simp [bytesLt] at h1
  | _ :: _, [], _, h2 => by simp [bytesLt] at h2
  | x :: xs, y :: ys, h1, h2 => by
    simp only [bytesLt] at h1 h2
    rcases Nat.lt_trichotomy x y with hxy | hxy | hxy
    · simp [hxy] at h1
    · subst hxy
      simp only [Nat.lt_irrefl, if_false] at h1 h2
      rw [bytesLt_conn h1 h2]
    · simp [hxy] at h2

/-- A valid name contains no separator byte. -/
theorem validName_no_sep {n : List Nat} (h : validName n = true) : ∀ b ∈ n, b ≠ 47 := by
  intro b hb
  simp only [validName, Bool.and_eq_true, List.all_eq_true] at h
  have hby := h.2 b hb
  simp only [Bool.and_eq_true, Bool.not_eq_true', beq_eq_false_iff_ne] at hby
  exact hby.1.2

/-- A valid name contains no null byte. -/
theorem validName_no_nul {n : List Nat} (h : validName n = true) : ∀ b ∈ n, b ≠ 0 := by
  intro b hb
  simp only [validName, Bool.and_eq_true, List.all_eq_true] at h
  have hby := h.2 b hb
  simp only [Bool.and_eq_true, Bool.not_eq_true', beq_eq_false_iff_ne] at hby
  exact hby.1.1

/-- A valid name is non-empty. -/
theorem validName_ne_nil {n : List Nat} (h : validName n = true) : n ≠ [] := by
  intro heq
  subst heq
  simp [validName] at h

/-- Entries with valid names and equal sort keys have equal names. -/
theorem sortKey_inj {a b : git_tree_entry} (ha : validName a.filename = true)
    (hb : validName b.filename = true) (h : sortKey a = sortKey b) :
    a.filename = b.filename := by
  unfold sortKey at h
  by_cases hda : (a.attributes == 16384) = true
  · rw [if_pos hda] at h
    by_cases hdb : (b.attributes == 16384) = true
    · rw [if_pos hdb] at h
      have hlen : a.filename.length = b.filename.length := by
        have hc := congrArg List.length h
        simp at hc
        omega
      exact (List.append_inj h hlen).1
    · rw [if_neg hdb] at h
      exfalso
      have h47 : (47 : Nat) ∈ b.filename := by
        rw [← h]; simp
      exact validName_no_sep hb 47 h47 rfl
  · rw [if_neg hda] at h
    by_cases hdb : (b.attributes == 16384) = true
    · rw [if_pos hdb] at h
      exfalso
      have h47 : (47 : Nat) ∈ a.filename := by
        rw [h]; simp
      exact validName_no_sep ha 47 h47 rfl
    · rw [if_neg hdb] at h
      exact h

/-- The entry order is transitive. -/
theorem entryLt_trans {a b c : git_tree_entry} (h1 : entryLt a b = true)
    (h2 : entryLt b c = true) : entryLt a c = true :=
  bytesLt_trans h1 h2

/-- The entry order is asymmetric. -/
theorem entryLt_asymm {a b : git_tree_entry} (h : entryLt a b = true) :
    entryLt b a = false :=
  bytesLt_asymm h

/-- The entry order is irreflexive. -/
theorem entryLt_irrefl (a : git_tree_entry) : entryLt a a = false :=
  bytesLt_irrefl _

/-- Entries with valid, distinct names are comparable one way or the other. -/
theorem entryLt_total_of_ne {a b : git_tree_entry} (ha : validName a.filename = true)
    (hb : validName b.filename = true) (hne : a.filename ≠ b.filename) :
    entryLt a b = true ∨ entryLt b a = true := by
  cases h1 : entryLt a b with
  | true => exact Or.inl rfl
  | false =>
    cases h2 : entryLt b a with
    | true => exact Or.inr rfl
    | false =>
      exact absurd (sortKey_inj ha hb (bytesLt_conn h1 h2)) hne

/-- Consecutive strict sortedness is equivalent to pairwise sortedness. -/
theorem sortedStrict_iff {l : List git_tree_entry} :
    sortedStrict l = true ↔ l.Pairwise (fun a b => entryLt a b = true) := by
  induction l with
  | nil => simp [sortedStrict]
  | cons x xs ih =>
    cases xs with
    | nil => simp [sortedStrict]
    | cons y ys =>
      constructor
      · intro h
        simp only [sortedStrict, Bool.and_eq_true] at h
        have hp := ih.mp h.2
        refine List.Pairwise.cons ?_ hp
        intro z hz
        rcases List.mem_cons.mp hz with hzy | hzys
        · subst hzy; exact h.1
        · have hyz := (List.pairwise_cons.mp hp).1 z hzys
          exact entryLt_trans h.1 hyz
      · intro h
        rcases List.pairwise_cons.mp h with ⟨hx, hp⟩
        simp only [sortedStrict, Bool.and_eq_true]
        exact ⟨hx y (List.mem_cons_self y ys), ih.mpr hp⟩

/-- The executable duplicate check is equivalent to pairwise distinctness
of names. -/
theorem nodup_names_iff {l : List git_tree_entry} :
    nodup_names l = true ↔ l.Pairwise (fun a b => a.filename ≠ b.filename) := by
  induction l with
  | nil => simp [nodup_names]
  | cons x xs ih =>
    simp only [nodup_names, Bool.and_eq_true, List.all_eq_true, ih, List.pairwise_cons,
      Bool.not_eq_true', beq_eq_false_iff_ne]
    constructor
    · rintro ⟨h1, h2⟩
      exact ⟨fun a ha => (h1 a ha).symm, h2⟩
    · rintro ⟨h1, h2⟩
      exact ⟨fun a ha => (h1 a ha).symm, h2⟩

/-- Membership after a sorted insertion. -/
theorem mem_insertEntry {e x : git_tree_entry} : ∀ {l : List git_tree_entry},
    (x ∈ insertEntry e l ↔ x = e ∨ x ∈ l)
  | [] => by simp [insertEntry]
  | y :: ys => by
    simp only [insertEntry]
    by_cases h : (entryLt e y) = true
    · rw [if_pos h]
      simp [List.mem_cons]
    · rw [if_neg h]
      simp only [List.mem_cons, mem_insertEntry (l := ys)]
      tauto

/-- Length after a sorted insertion. -/
theorem length_insertEntry (e : git_tree_entry) : ∀ (l : List git_tree_entry),
    (insertEntry e l).length = l.length + 1
  | [] => rfl
  | y :: ys => by
    simp only [insertEntry]
    by_cases h : (entryLt e y) = true
    · rw [if_pos h]; rfl
    · rw [if_neg h]
      simp [length_insertEntry e ys]

/-- Sorted insertion of an entry with a fresh, valid name preserves
pairwise strict sortedness. -/
theorem pairwise_lt_insertEntry {e : git_tree_entry} (hv : validName e.filename = true) :
    ∀ {l : List git_tree_entry},
    l.Pairwise (fun a b => entryLt a b = true) →
    (∀ x ∈ l, x.filename ≠ e.filename) →
    (∀ x ∈ l, validName x.filename = true) →
    (insertEntry e l).Pairwise (fun a b => entryLt a b = true)
  | [], _, _, _ => by simp [insertEntry]
  | y :: ys, hl, hfresh, hvl => by
    rcases List.pairwise_cons.mp hl with ⟨hy, hys⟩
    simp only [insertEntry]
    by_cases h : (entryLt e y) = true
    · rw [if_pos h]
      refine List.Pairwise.cons ?_ hl
      intro z hz
      rcases List.mem_cons.mp hz with hzy | hzys
      · subst hzy; exact h
      · exact entryLt_trans h (hy z hzys)
    · rw [if_neg h]
      have hye : entryLt y e = true := by
        rcases entryLt_total_of_ne (hvl y (List.mem_cons_self y ys)) hv
            (hfresh y (List.mem_cons_self y ys)) with h1 | h1
        · exact h1
        · exact absurd h1 h
      refine List.Pairwise.cons ?_ ?_
      · intro z hz
        rcases mem_insertEntry.mp hz with hze | hzys
        · subst hze; exact hye
        · exact hy z hzys
      · exact pairwise_lt_insertEntry hv hys
          (fun x hx => hfresh x (List.mem_cons_of_mem y hx))
          (fun x hx => hvl x (List.mem_cons_of_mem y hx))

/-- Sorted insertion of an entry with a fresh name preserves pairwise
distinctness of names. -/
theorem pairwise_ne_insertEntry {e : git_tree_entry} :
    ∀ {l : List git_tree_entry},
    l.Pairwise (fun a b => a.filename ≠ b.filename) →
    (∀ x ∈ l, x.filename ≠ e.filename) →
    (insertEntry e l).Pairwise (fun a b => a.filename ≠ b.filename)
  | [], _, _ => by simp [insertEntry]
  | y :: ys, hl, hfresh => by
    rcases List.pairwise_cons.mp hl with ⟨hy, hys⟩
    simp only [insertEntry]
    by_cases h : (entryLt e y) = true
    · rw [if_pos h]
      refine List.Pairwise.cons ?_ hl
      intro z hz
      exact (hfresh z hz).symm
    · rw [if_neg h]
      refine List.Pairwise.cons ?_ ?_
      · intro z hz
        rcases mem_insertEntry.mp hz with hze | hzys
        · subst hze
          exact hfresh y (List.mem_cons_self y ys)
        · exact hy z hzys
      · exact pairwise_ne_insertEntry hys
          (fun x hx => hfresh x (List.mem_cons_of_mem y hx))

/-- A boolean predicate holding on an entry and on a list keeps holding
after the sorted insertion. -/
theorem all_insertEntry {p : git_tree_entry → Bool} {e : git_tree_entry}
    {l : List git_tree_entry} (hp : p e = true) (hl : l.all p = true) :
    (insertEntry e l).all p = true := by
  simp only [List.all_eq_true] at hl ⊢
  intro x hx
  rcases mem_insertEntry.mp hx with hxe | hxl
  · subst hxe; exact hp
  · exact hl x hxl

/-- Positions below the erased index are unaffected by `eraseIdx`. -/
theorem get?_eraseIdx_lt {α : Type} : ∀ (l : List α) (i j : Nat), j < i →
    (l.eraseIdx i).get? j = l.get? j
  | [], _, _, _ => rfl
  | _ :: _, 0, j, h => absurd h (Nat.not_lt_zero j)
  | _ :: _, _ + 1, 0, _ => rfl
  | x :: xs, i + 1, j + 1, h =>
    get?_eraseIdx_lt xs i j (Nat.lt_of_succ_lt_succ h)

/-- Positions at or above the erased index shift down by one. -/
theorem get?_eraseIdx_ge {α : Type} : ∀ (l : List α) (i j : Nat), i < l.length → i ≤ j →
    (l.eraseIdx i).get? j = l.get? (j + 1)
  | [], _, _, hi, _ => absurd hi (Nat.not_lt_zero _)
  | _ :: _, 0, _, _, _ => rfl
  | x :: xs, i + 1, 0, _, hij => absurd hij (Nat.not_succ_le_zero i)
  | x :: xs, i + 1, j + 1, hi, hij =>
    get?_eraseIdx_ge xs i j (Nat.lt_of_succ_lt_succ hi) (Nat.le_of_succ_le_succ hij)

/-- Erasing a position of a non-empty range shortens the list by one. -/
theorem length_eraseIdx_lt {α : Type} : ∀ (l : List α) (i : Nat), i < l.length →
    (l.eraseIdx i).length + 1 = l.length
  | [], _, hi => absurd hi (Nat.not_lt_zero _)
  | _ :: _, 0, _ => rfl
  | x :: xs, i + 1, hi => by
    simp only [List.eraseIdx, List.length_cons]
    rw [length_eraseIdx_lt xs i (Nat.lt_of_succ_lt_succ hi)]

/-- Taking the length of the left part of an append returns it. -/
theorem take_len_append {α : Type} : ∀ (a b : List α), (a ++ b).take a.length = a
  | [], _ => rfl
  | x :: xs, b => by
    simp only [List.cons_append, List.length_cons, List.take_succ_cons]
    rw [take_len_append xs b]

/-- Dropping the length of the left part of an append returns the right
part. -/
theorem drop_len_append {α : Type} : ∀ (a b : List α), (a ++ b).drop a.length = b
  | [], _ => rfl
  | x :: xs, b => drop_len_append xs b

/-- Computing `takeWhile` across an append whose left part satisfies the
predicate and whose first right element does not. -/
theorem takeWhile_app {α : Type} (p : α → Bool) :
    ∀ (l : List α) (x : α) (r : List α), (∀ b ∈ l, p b = true) → p x = false →
    (l ++ x :: r).takeWhile p = l
  | [], x, r, _, hx => by simp [List.takeWhile, hx]
  | y :: ys, x, r, hl, hx => by
    have hy := hl y (List.mem_cons_self y ys)
    simp only [List.cons_append, List.takeWhile, hy, List.append_eq]
    rw [takeWhile_app p ys x r (fun b hb => hl b (List.mem_cons_of_mem y hb)) hx]

/-- Computing `dropWhile` across an append whose left part satisfies the
predicate and whose first right element does not. -/
theorem dropWhile_app {α : Type} (p : α → Bool) :
    ∀ (l : List α) (x : α) (r : List α), (∀ b ∈ l, p b = true) → p x = false →
    (l ++ x :: r).dropWhile p = x :: r
  | [], x, r, _, hx => by simp [List.dropWhile, hx]
  | y :: ys, x, r, hl, hx => by
    have hy := hl y (List.mem_cons_self y ys)
    simp only [List.cons_append, List.dropWhile, hy, List.append_eq]
    exact dropWhile_app p ys x r (fun b hb => hl b (List.mem_cons_of_mem y hb)) hx

/-- Dropping while a predicate holds of every element drops everything. -/
theorem dropWhile_all {α : Type} (p : α → Bool) :
    ∀ (l : List α), (∀ b ∈ l, p b = true) → l.dropWhile p = []
  | [], _ => rfl
  | y :: ys, hl => by
    have hy := hl y (List.mem_cons_self y ys)
    simp only [List.dropWhile, hy]
    exact dropWhile_all p ys (fun b hb => hl b (List.mem_cons_of_mem y hb))

/-- The boolean well-formedness invariant, read as propositions. -/
theorem treeWFb_iff {l : List git_tree_entry} :
    treeWFb l = true ↔
      l.Pairwise (fun a b => entryLt a b = true) ∧
      l.Pairwise (fun a b => a.filename ≠ b.filename) ∧
      (∀ e ∈ l, validName e.filename = true) := by
  simp only [treeWFb, Bool.and_eq_true, sortedStrict_iff, nodup_names_iff, List.all_eq_true]
  tauto

/-- Any sublist of a well-formed entry list is well-formed. -/
theorem treeWFb_sublist {l l2 : List git_tree_entry} (h : treeWFb l = true)
    (hs : List.Sublist l2 l) : treeWFb l2 = true := by
  rcases treeWFb_iff.mp h with ⟨h1, h2, h3⟩
  exact treeWFb_iff.mpr
    ⟨h1.sublist hs, h2.sublist hs, fun e he => h3 e (hs.mem he)⟩

/-- A successful `add_entry` preserves the well-formedness invariant. -/
theorem treeWFb_add {t : git_tree} {id filename : List Nat} {attrs : Nat} {t2 : git_tree}
    (h : treeWFb t.entries = true)
    (hok : git_tree_add_entry t id filename attrs = Except.ok t2) :
    treeWFb t2.entries = true := by
  unfold git_tree_add_entry at hok
  by_cases hn : validName filename = true
  · rw [hn] at hok
    simp only [Bool.not_true, Bool.false_eq_true, if_false] at hok
    by_cases hm : validMode attrs = true
    · rw [hm] at hok
      simp only [Bool.not_true, Bool.false_eq_true, if_false] at hok
      by_cases hdup : (t.entries.any fun e => e.filename == filename) = true
      · rw [if_pos hdup] at hok
        cases hok
      · rw [if_neg hdup] at hok
        cases hok
        rcases treeWFb_iff.mp h with ⟨h1, h2, h3⟩
        have hfresh : ∀ x ∈ t.entries, x.filename ≠ filename := by
          intro x hx heq
          exact hdup (List.any_eq_true.mpr ⟨x, hx, by simp [heq]⟩)
        refine treeWFb_iff.mpr ⟨?_, ?_, ?_⟩
        · exact pairwise_lt_insertEntry hn h1 hfresh h3
        · exact pairwise_ne_insertEntry h2 hfresh
        · intro e he
          rcases mem_insertEntry.mp he with he2 | he2
          · subst he2; exact hn
          · exact h3 e he2
    · rw [Bool.not_eq_true] at hm
      rw [hm] at hok
      simp at hok
  · rw [Bool.not_eq_true] at hn
    rw [hn] at hok
    simp at hok

/-- One call of the entry-list API preserves the well-formedness
invariant. -/
theorem treeWFb_applyOp {m : TreeMutation} {t : git_tree}
    (hm : isEntryListOp m = true) (h : treeWFb t.entries = true) :
    treeWFb (applyOp m t).entries = true := by
  cases m with
  | add id filename attrs =>
    simp only [applyOp, applyMutation]
    cases hok : git_tree_add_entry t id filename attrs with
    | ok t2 => exact treeWFb_add h hok
    | error e => exact h
  | removeIdx idx =>
    simp only [applyOp, applyMutation, git_tree_remove_entry_byindex]
    by_cases hin : 0 ≤ idx ∧ idx.toNat < t.entries.length
    · rw [if_pos hin]
      exact treeWFb_sublist h (List.eraseIdx_sublist t.entries idx.toNat)
    · rw [if_neg hin]
      exact h
  | removeName name =>
    simp only [applyOp, applyMutation, git_tree_remove_entry_byname]
    cases hfi : t.entries.findIdx? (fun e => e.filename == name) with
    | none => exact h
    | some i => exact treeWFb_sublist h (List.eraseIdx_sublist t.entries i)
  | setId idx o => simp [isEntryListOp] at hm
  | setName idx name => simp [isEntryListOp] at hm
  | setAttr idx a => simp [isEntryListOp] at hm

/-- A valid mode is one of the five closed-set values. -/
theorem validMode_cases {m : Nat} (h : validMode m = true) :
    m = 16384 ∨ m = 33188 ∨ m = 33261 ∨ m = 40960 ∨ m = 57344 := by
  simp only [validMode, Bool.or_eq_true, beq_iff_eq] at h
  tauto

/-- For every valid mode, the minimal octal string consists of octal
digits, is free of the space byte, and evaluates back to the mode. -/
theorem octalMinimal_spec {m : Nat} (h : validMode m = true) :
    (octalMinimal m).all isOctalDigit = true ∧
    octalValue (octalMinimal m) = m ∧
    (∀ b ∈ octalMinimal m, (!(b == 32)) = true) := by
  rcases validMode_cases h with hm | hm | hm | hm | hm <;> subst hm <;>
    exact ⟨by decide, by decide, by decide⟩

/-- A non-empty list is not `isEmpty`. -/
theorem isEmpty_false_of_ne_nil {α : Type} {l : List α} (h : l ≠ []) :
    l.isEmpty = false := by
  cases l with
  | nil => exact absurd rfl h
  | cons x xs => rfl

/-- Bytes of a valid name never test as null. -/
theorem validName_nul_pred {n : List Nat} (h : validName n = true) :
    ∀ b ∈ n, (!(b == 0)) = true := by
  intro b hb
  simp [validName_no_nul h b hb]

/-- Parsing an encoded record off an arbitrary remainder returns the
record's entry and the untouched remainder. -/
theorem parseRecord_encode {e : git_tree_entry} (hm : validMode e.attributes = true)
    (hn : validName e.filename = true) (ho : e.oid.length = 20) (rest : List Nat) :
    parseRecord (encodeRecord e ++ rest) = Except.ok (e, rest) := by
  obtain ⟨hdig, hval, hne32⟩ := octalMinimal_spec hm
  have hbuf : encodeRecord e ++ rest =
      octalMinimal e.attributes ++ 32 :: (e.filename ++ 0 :: (e.oid ++ rest)) := by
    simp [encodeRecord, List.append_assoc]
  have htw := takeWhile_app (fun b => !(b == 32)) (octalMinimal e.attributes)
    32 (e.filename ++ 0 :: (e.oid ++ rest)) hne32 (by simp)
  have hdw := dropWhile_app (fun b => !(b == 32)) (octalMinimal e.attributes)
    32 (e.filename ++ 0 :: (e.oid ++ rest)) hne32 (by simp)
  have htw2 := takeWhile_app (fun b => !(b == 0)) e.filename 0 (e.oid ++ rest)
    (validName_nul_pred hn) (by simp)
  have hdw2 := dropWhile_app (fun b => !(b == 0)) e.filename 0 (e.oid ++ rest)
    (validName_nul_pred hn) (by simp)
  rw [hbuf]
  unfold parseRecord
  simp only [htw, hdw, htw2, hdw2, hdig, hval, hm, Bool.not_true, Bool.false_eq_true,
    if_false, isEmpty_false_of_ne_nil (validName_ne_nil hn)]
  have hlen : (e.oid ++ rest).length = 20 + rest.length := by
    simp [ho]
  rw [if_neg (by omega)]
  have htk : (e.oid ++ rest).take 20 = e.oid := by
    rw [← ho]
    exact take_len_append e.oid rest
  have hdr : (e.oid ++ rest).drop 20 = rest := by
    rw [← ho]
    exact drop_len_append e.oid rest
  rw [htk, hdr]

/-- A successfully parsed record consumes at least one byte. -/
theorem parseRecord_shrink {buf : List Nat} {e : git_tree_entry} {rest : List Nat}
    (h : parseRecord buf = Except.ok (e, rest)) : rest.length < buf.length := by
  unfold parseRecord at h
  split at h
  · cases h
  · rename_i sp afterSp hdw
    have hs1 : afterSp.length + 1 ≤ buf.length := by
      have hsub := (List.dropWhile_sublist (fun b : Nat => !(b == 32)) (l := buf)).length_le
      rw [hdw] at hsub
      simpa using hsub
    split at h
    · cases h
    · split at h
      · cases h
      · split at h
        · cases h
        · rename_i nul afterNul hdw2
          have hs2 : afterNul.length + 1 ≤ afterSp.length := by
            have hsub := (List.dropWhile_sublist (fun b : Nat => !(b == 0)) (l := afterSp)).length_le
            rw [hdw2] at hsub
            simpa using hsub
          split at h
          · cases h
          · split at h
            · cases h
            · cases h
              have hd : (afterNul.drop 20).length = afterNul.length - 20 := by simp
              omega

/-- Any fuel at least the buffer length gives the same record parse. -/
theorem decodeRecords_fuel_inv : ∀ (f1 : Nat) (buf : List Nat) (f2 : Nat),
    buf.length ≤ f1 → buf.length ≤ f2 →
    decodeRecords f1 buf = decodeRecords f2 buf := by
  intro f1
  induction f1 with
  | zero =>
    intro buf f2 h1 _
    have hb : buf = [] := List.eq_nil_of_length_eq_zero (Nat.le_zero.mp h1)
    subst hb
    cases f2 <;> rfl
  | succ n ih =>
    intro buf f2 h1 h2
    cases buf with
    | nil => cases f2 <;> rfl
    | cons b bs =>
      cases f2 with
      | zero => simp at h2
      | succ m =>
        cases hp : parseRecord (b :: bs) with
        | error e => simp only [decodeRecords, hp]
        | ok pr =>
          rcases pr with ⟨ent, rest⟩
          have hlt : rest.length < (b :: bs).length := parseRecord_shrink hp
          have hr1 : rest.length ≤ n := by
            simp at h1 hlt
            omega
          have hr2 : rest.length ≤ m := by
            simp at h2 hlt
            omega
          simp only [decodeRecords, hp]
          rw [ih rest m hr1 hr2]

/-- The unfolding of a full buffer parse on a non-empty buffer. -/
theorem decodeRecords_len_cons {b : Nat} {bs : List Nat} :
    decodeRecords (b :: bs).length (b :: bs) =
      match parseRecord (b :: bs) with
      | Except.error e => Except.error e
      | Except.ok (ent, rest) =>
        match decodeRecords rest.length rest with
        | Except.error e => Except.error e
        | Except.ok l => Except.ok (ent :: l) := by
  cases hp : parseRecord (b :: bs) with
  | error e => simp only [List.length_cons, decodeRecords, hp]
  | ok pr =>
    rcases pr with ⟨ent, rest⟩
    have hlt : rest.length < (b :: bs).length := parseRecord_shrink hp
    have hle : rest.length ≤ bs.length := by
      simp at hlt
      omega
    simp only [List.length_cons, decodeRecords, hp]
    rw [decodeRecords_fuel_inv bs.length rest rest.length hle (Nat.le_refl _)]

/-- Validity of one entry: valid mode, valid name, 20-byte identity. -/
def entryOK (e : git_tree_entry) : Bool :=
  validMode e.attributes && validName e.filename && e.oid.length == 20

/-- Parsing the encoding of a list of valid entries followed by any
remainder parses the entries and continues on the remainder. -/
theorem decodeRecords_encode_append :
    ∀ (l : List git_tree_entry), (∀ e ∈ l, entryOK e = true) → ∀ (rest : List Nat),
    decodeRecords (git_tree_encode l ++ rest).length (git_tree_encode l ++ rest) =
      match decodeRecords rest.length rest with
      | Except.error e => Except.error e
      | Except.ok l2 => Except.ok (l ++ l2) := by
  intro l
  induction l with
  | nil =>
    intro _ rest
    simp only [git_tree_encode, List.nil_append]
    cases hr : decodeRecords rest.length rest with
    | error e => rfl
    | ok l2 => simp
  | cons e es ih =>
    intro hv rest
    have he : entryOK e = true := hv e (List.mem_cons_self e es)
    simp only [entryOK, Bool.and_eq_true, beq_iff_eq] at he
    have hbuf : git_tree_encode (e :: es) ++ rest =
        encodeRecord e ++ (git_tree_encode es ++ rest) := by
      simp [git_tree_encode, List.append_assoc]
    rw [hbuf]
    have hcons : ∃ b bs, encodeRecord e ++ (git_tree_encode es ++ rest) = b :: bs := by
      cases hrec : encodeRecord e with
      | nil =>
        exfalso
        have h32 : (32 : Nat) ∈ encodeRecord e := by
          simp [encodeRecord]
        rw [hrec] at h32
        cases h32
      | cons b bs => exact ⟨b, bs ++ (git_tree_encode es ++ rest), by simp [hrec]⟩
    rcases hcons with ⟨b, bs, hbbs⟩
    rw [hbbs, decodeRecords_len_cons, ← hbbs]
    simp only [parseRecord_encode he.1.1 he.1.2 he.2 (git_tree_encode es ++ rest)]
    rw [ih (fun x hx => hv x (List.mem_cons_of_mem e hx)) rest]
    cases decodeRecords rest.length rest with
    | error err => rfl
    | ok l2 => rfl

/-- Every failure of the record parser is `Corrupt`. -/
theorem parseRecord_error_corrupt {buf : List Nat} {e : GitError}
    (h : parseRecord buf = Except.error e) : e = GitError.Corrupt := by
  unfold parseRecord at h
  split at h
  · cases h; rfl
  · split at h
    · cases h; rfl
    · split at h
      · cases h; rfl
      · split at h
        · cases h; rfl
        · split at h
          · cases h; rfl
          · split at h
            · cases h; rfl
            · cases h

/-- Every failure of the record loop is `Corrupt`. -/
theorem decodeRecords_error_corrupt : ∀ {fuel : Nat} {buf : List Nat} {e : GitError},
    decodeRecords fuel buf = Except.error e → e = GitError.Corrupt := by
  intro fuel
  induction fuel with
  | zero =>
    intro buf e h
    cases buf with
    | nil => cases h
    | cons b bs => cases h; rfl
  | succ n ih =>
    intro buf e h
    cases buf with
    | nil => cases h
    | cons b bs =>
      cases hp : parseRecord (b :: bs) with
      | error e2 =>
        simp only [decodeRecords, hp] at h
        cases h
        exact parseRecord_error_corrupt hp
      | ok pr =>
        rcases pr with ⟨ent, rest⟩
        simp only [decodeRecords, hp] at h
        cases hr : decodeRecords n rest with
        | error e2 =>
          simp only [hr] at h
          cases h
          exact ih hr
        | ok l =>
          simp only [hr] at h
          cases h

/-- Every failure of the full decode is `Corrupt`. -/
theorem decodeEntries_error_corrupt {buf : List Nat} {e : GitError}
    (h : decodeEntries buf = Except.error e) : e = GitError.Corrupt := by
  unfold decodeEntries at h
  cases hr : decodeRecords buf.length buf with
  | error e2 =>
    simp only [hr] at h
    cases h
    exact decodeRecords_error_corrupt hr
  | ok l =>
    simp only [hr] at h
    by_cases hc : (nodup_names l && keysSorted l) = true
    · rw [if_pos hc] at h
      cases h
    · rw [if_neg hc] at h
      cases h
      rfl

/-- A strictly sorted entry list passes the non-decreasing key check. -/
theorem keysSorted_of_sortedStrict : ∀ {l : List git_tree_entry},
    sortedStrict l = true → keysSorted l = true
  | [] => fun _ => rfl
  | [_] => fun _ => rfl
  | a :: b :: rest => by
    intro h
    simp only [sortedStrict, Bool.and_eq_true] at h
    simp only [keysSorted, Bool.and_eq_true]
    refine ⟨?_, keysSorted_of_sortedStrict h.2⟩
    simp [bytesLt_asymm h.1]

/-- Decoding the encoding of a canonical, valid entry list returns the
list itself. -/
theorem decodeEntries_encode {l : List git_tree_entry}
    (hv : ∀ e ∈ l, entryOK e = true) (hwf : treeWFb l = true) :
    decodeEntries (git_tree_encode l) = Except.ok l := by
  have h2 := decodeRecords_encode_append l hv []
  simp only [List.append_nil, decodeRecords] at h2
  simp only [treeWFb, Bool.and_eq_true] at hwf
  have hks := keysSorted_of_sortedStrict hwf.1.1
  unfold decodeEntries
  simp only [h2]
  rw [if_pos (by rw [hwf.1.2, hks]; rfl)]

/-- A record whose name field is empty (null byte right after the space)
fails to parse. -/
theorem parseRecord_empty_name {m : Nat} (hm : validMode m = true) (trail : List Nat) :
    parseRecord (octalMinimal m ++ 32 :: 0 :: trail) = Except.error GitError.Corrupt := by
  obtain ⟨hdig, hval, hne32⟩ := octalMinimal_spec hm
  have htw := takeWhile_app (fun b => !(b == 32)) (octalMinimal m) 32 (0 :: trail)
    hne32 (by simp)
  have hdw := dropWhile_app (fun b => !(b == 32)) (octalMinimal m) 32 (0 :: trail)
    hne32 (by simp)
  unfold parseRecord
  simp [htw, hdw, hdig, hval, hm, List.dropWhile, List.takeWhile]

/-- A record whose null terminator is missing before buffer end fails to
parse. -/
theorem parseRecord_missing_nul {m : Nat} (hm : validMode m = true) {name : List Nat}
    (hnonul : ∀ b ∈ name, (!(b == 0)) = true) :
    parseRecord (octalMinimal m ++ 32 :: name) = Except.error GitError.Corrupt := by
  obtain ⟨hdig, hval, hne32⟩ := octalMinimal_spec hm
  have htw := takeWhile_app (fun b => !(b == 32)) (octalMinimal m) 32 name
    hne32 (by simp)
  have hdw := dropWhile_app (fun b => !(b == 32)) (octalMinimal m) 32 name
    hne32 (by simp)
  have hdw2 := dropWhile_all (fun b => !(b == 0)) name hnonul
  unfold parseRecord
  simp [htw, hdw, hdig, hval, hm, hdw2]

/-- A buffer whose first record fails to parse fails the whole record
loop, with any fuel. -/
theorem decodeRecords_of_parse_error {buf : List Nat} (hne : buf ≠ [])
    (hp : parseRecord buf = Except.error GitError.Corrupt) :
    ∀ fuel, decodeRecords fuel buf = Except.error GitError.Corrupt := by
  intro fuel
  cases buf with
  | nil => exact absurd rfl hne
  | cons b bs =>
    cases fuel with
    | zero => rfl
    | succ n => simp only [decodeRecords, hp]

/-- Appending a rejected record after well-formed records makes the whole
decode fail with `Corrupt`. -/
theorem decodeEntries_append_bad {good : List git_tree_entry}
    (hv : ∀ e ∈ good, entryOK e = true) {bad : List Nat} (hne : bad ≠ [])
    (hp : parseRecord bad = Except.error GitError.Corrupt) :
    decodeEntries (git_tree_encode good ++ bad) = Except.error GitError.Corrupt := by
  unfold decodeEntries
  rw [decodeRecords_encode_append good hv bad]
  rw [decodeRecords_of_parse_error hne hp bad.length]

/-- In a duplicate-free list, looking up any member's name finds exactly
that member. -/
theorem find?_byname {l : List git_tree_entry}
    (hnd : l.Pairwise (fun a b => a.filename ≠ b.filename)) {e : git_tree_entry}
    (he : e ∈ l) : l.find? (fun x => x.filename == e.filename) = some e := by
  induction l with
  | nil => cases he
  | cons x xs ih =>
    rcases List.pairwise_cons.mp hnd with ⟨hx, hxs⟩
    rcases List.mem_cons.mp he with he1 | he2
    · subst he1
      simp [List.find?]
    · have hne : (x.filename == e.filename) = false := by
        simp [hx e he2]
      simp only [List.find?, hne]
      exact ih hxs he2

/-- C1: for every canonically sorted, duplicate-free sequence of valid
entries, decoding the byte buffer produced by encoding the sequence yields
the same sequence again, field-for-field and in order; the tree-level
decode returns a clean tree holding exactly those entries and the
caller-supplied identity. -/
theorem C1_roundtrip (l : List git_tree_entry)
    (hv : ∀ e ∈ l, entryOK e = true) (hwf : treeWFb l = true) :
    decodeEntries (git_tree_encode l) = Except.ok l ∧
    ∀ id : List Nat, git_tree_decode (git_tree_encode l) id =
      Except.ok { entries := l, identity := some id, dirty := false } := by
  have hd := decodeEntries_encode hv hwf
  refine ⟨hd, fun id => ?_⟩
  unfold git_tree_decode
  simp only [hd]

/-- Witness for C1 on a concrete two-entry tree (a regular file and a
directory). -/
theorem C1_roundtrip_witness :
    (∀ e ∈ [⟨[97], 33188, List.replicate 20 1⟩,
            (⟨[98], 16384, List.replicate 20 2⟩ : git_tree_entry)], entryOK e = true) ∧
    treeWFb [⟨[97], 33188, List.replicate 20 1⟩, ⟨[98], 16384, List.replicate 20 2⟩] = true ∧
    decodeEntries (git_tree_encode [⟨[97], 33188, List.replicate 20 1⟩,
        ⟨[98], 16384, List.replicate 20 2⟩]) =
      Except.ok [⟨[97], 33188, List.replicate 20 1⟩, ⟨[98], 16384, List.replicate 20 2⟩] ∧
    git_tree_decode (git_tree_encode [⟨[97], 33188, List.replicate 20 1⟩,
        ⟨[98], 16384, List.replicate 20 2⟩]) (List.replicate 20 9) =
      Except.ok (⟨[⟨[97], 33188, List.replicate 20 1⟩,
        ⟨[98], 16384, List.replicate 20 2⟩],
        some (List.replicate 20 9), false⟩ : git_tree) :=
  ⟨by decide, by decide,
    (C1_roundtrip _ (by decide) (by decide)).1,
    (C1_roundtrip _ (by decide) (by decide)).2 (List.replicate 20 9)⟩

/-- C2: after any sequence of `add_entry`, `remove_entry_byindex` and
`remove_entry_byname` calls, the entry list remains strictly sorted under
the directory-aware comparison rule and no two entries share a name. -/
theorem C2_ordering_invariant : ∀ (ops : List TreeMutation) (t : git_tree),
    (∀ op ∈ ops, isEntryListOp op = true) → treeWFb t.entries = true →
    treeWFb (applyOps ops t).entries = true
  | [], t, _, h => h
  | op :: rest, t, hops, h => by
    simp only [applyOps, List.foldl_cons]
    exact C2_ordering_invariant rest (applyOp op t)
      (fun o ho => hops o (List.mem_cons_of_mem op ho))
      (treeWFb_applyOp (hops op (List.mem_cons_self op rest)) h)

/-- Witness for C2: scenario B's two insertions followed by a removal,
starting from the empty tree. -/
theorem C2_ordering_invariant_witness :
    (∀ op ∈ [TreeMutation.add (List.replicate 20 1) [122] 33188,
             TreeMutation.add (List.replicate 20 2) [97] 33188,
             TreeMutation.removeName [122]], isEntryListOp op = true) ∧
    treeWFb git_tree_new.entries = true ∧
    treeWFb (applyOps [TreeMutation.add (List.replicate 20 1) [122] 33188,
        TreeMutation.add (List.replicate 20 2) [97] 33188,
        TreeMutation.removeName [122]] git_tree_new).entries = true :=
  ⟨by decide, by decide,
    C2_ordering_invariant _ git_tree_new (by decide) (by decide)⟩

/-- C3: every successful mutating call leaves the tree dirty with no
cached identity, and a subsequent explicit write derives the identity
from the current entries, never from a stale value. -/
theorem C3_mutation_invalidates_identity (m : TreeMutation) (t t2 : git_tree)
    (h : applyMutation m t = Except.ok t2) :
    t2.dirty = true ∧ t2.identity = none ∧
    ∀ store : List Nat → List Nat,
      (git_object_write t2 store).identity =
        some (store (git_tree_encode t2.entries)) ∧
      (git_object_write t2 store).dirty = false := by
  have hmain : t2.dirty = true ∧ t2.identity = none := by
    cases m with
    | add id filename attrs =>
      simp only [applyMutation] at h
      unfold git_tree_add_entry at h
      split at h
      · cases h
      · split at h
        · cases h
        · split at h
          · cases h
          · cases h
            exact ⟨rfl, rfl⟩
    | removeIdx idx =>
      simp only [applyMutation] at h
      unfold git_tree_remove_entry_byindex at h
      split at h
      · cases h
        exact ⟨rfl, rfl⟩
      · cases h
    | removeName name =>
      simp only [applyMutation] at h
      unfold git_tree_remove_entry_byname at h
      split at h
      · cases h
      · cases h
        exact ⟨rfl, rfl⟩
    | setId idx o =>
      simp only [applyMutation] at h
      unfold set_id_checked at h
      split at h
      · cases h
      · cases h
        exact ⟨rfl, rfl⟩
    | setName idx name =>
      simp only [applyMutation] at h
      unfold set_name_checked at h
      split at h
      · cases h
      · split at h
        · cases h
        · cases h
          exact ⟨rfl, rfl⟩
    | setAttr idx a =>
      simp only [applyMutation] at h
      unfold set_attributes_checked at h
      split at h
      · cases h
      · cases h
        exact ⟨rfl, rfl⟩
  exact ⟨hmain.1, hmain.2, fun store => ⟨rfl, rfl⟩⟩

/-- Witness for C3: adding one entry to the empty tree and then writing
through a concrete store function. -/
theorem C3_mutation_invalidates_identity_witness :
    applyMutation (TreeMutation.add (List.replicate 20 1) [97] 33188) git_tree_new =
      Except.ok (⟨[⟨[97], 33188, List.replicate 20 1⟩], none, true⟩ : git_tree) ∧
    (⟨[⟨[97], 33188, List.replicate 20 1⟩], none, true⟩ : git_tree).dirty = true ∧
    (⟨[⟨[97], 33188, List.replicate 20 1⟩], none, true⟩ : git_tree).identity = none ∧
    (git_object_write (⟨[⟨[97], 33188, List.replicate 20 1⟩], none, true⟩ : git_tree)
        (fun _ => List.replicate 20 3)).identity =
      some (List.replicate 20 3) := by
  have h : applyMutation (TreeMutation.add (List.replicate 20 1) [97] 33188) git_tree_new =
      Except.ok (⟨[⟨[97], 33188, List.replicate 20 1⟩], none, true⟩ : git_tree) := by decide
  have hc := C3_mutation_invalidates_identity _ _ _ h
  exact ⟨h, hc.1, hc.2.1, (hc.2.2 (fun _ => List.replicate 20 3)).1⟩

/-- C6 as stated is false at this concrete input: renaming entry 0 to the
name of entry 1 is rejected in the sense that the tree is unchanged, but
the call cannot be "rejected with an error": the header declares
`git_tree_entry_set_name` with a void return, so no error reaches the
caller. -/
theorem C6_counterexample :
    git_tree_entry_set_name
        (⟨[⟨[97], 33188, List.replicate 20 1⟩, ⟨[98], 33188, List.replicate 20 2⟩],
          some (List.replicate 20 9), false⟩ : git_tree) 0 [98] =
      (⟨[⟨[97], 33188, List.replicate 20 1⟩, ⟨[98], 33188, List.replicate 20 2⟩],
        some (List.replicate 20 9), false⟩ : git_tree) ∧
    git_tree_entry_set_name_ret = CReturnType.void ∧
    canReportFailure git_tree_entry_set_name_ret = false :=
  ⟨by decide, rfl, rfl⟩

/-- C6 amended: a `set_name` call whose new name collides with another
entry's name leaves the tree entirely unchanged (silent rejection), and
no error can be reported since the function's declared return type is
void. -/
theorem C6_set_name_collision_silent (t : git_tree) (idx : Nat) (name : List Nat)
    (hcol : ((t.entries.eraseIdx idx).any fun x => x.filename == name) = true) :
    git_tree_entry_set_name t idx name = t ∧
    canReportFailure git_tree_entry_set_name_ret = false := by
  refine ⟨?_, rfl⟩
  unfold git_tree_entry_set_name set_name_checked
  cases hg : t.entries.get? idx with
  | none => rfl
  | some e => simp only [hg, hcol, if_true]

/-- Witness for C6's amended statement at a concrete two-entry tree. -/
theorem C6_set_name_collision_silent_witness :
    ((([⟨[97], 33188, List.replicate 20 1⟩,
        (⟨[98], 33188, List.replicate 20 2⟩ : git_tree_entry)]).eraseIdx 0).any
      fun x => x.filename == [98]) = true ∧
    git_tree_entry_set_name
        (⟨[⟨[97], 33188, List.replicate 20 1⟩, ⟨[98], 33188, List.replicate 20 2⟩],
          none, false⟩ : git_tree) 0 [98] =
      (⟨[⟨[97], 33188, List.replicate 20 1⟩, ⟨[98], 33188, List.replicate 20 2⟩],
        none, false⟩ : git_tree) ∧
    canReportFailure git_tree_entry_set_name_ret = false :=
  ⟨by decide,
    (C6_set_name_collision_silent _ 0 [98] (by decide)).1,
    (C6_set_name_collision_silent
      (⟨[⟨[97], 33188, List.replicate 20 1⟩, ⟨[98], 33188, List.replicate 20 2⟩],
        none, false⟩ : git_tree) 0 [98] (by decide)).2⟩

/-- C9: a mutating call that fails, with any error kind, leaves the tree
exactly as it was before the call. -/
theorem C9_failed_mutation_unchanged (m : TreeMutation) (t : git_tree) (e : GitError)
    (h : applyMutation m t = Except.error e) : applyOp m t = t := by
  simp only [applyOp, h]

/-- Witness for C9: removing index 0 from the empty tree fails with
`NotFound` and changes nothing. -/
theorem C9_failed_mutation_unchanged_witness :
    applyMutation (TreeMutation.removeIdx 0) git_tree_new =
      Except.error GitError.NotFound ∧
    applyOp (TreeMutation.removeIdx 0) git_tree_new = git_tree_new :=
  ⟨by decide, C9_failed_mutation_unchanged _ _ GitError.NotFound (by decide)⟩

/-- C10: the three entry-level mutators are declared in `src/git/tree.h`
with a void return, so no status or error can be reported to the caller
through their interface. -/
theorem C10_setters_void_return :
    git_tree_entry_set_id_ret = CReturnType.void ∧
    git_tree_entry_set_name_ret = CReturnType.void ∧
    git_tree_entry_set_attributes_ret = CReturnType.void ∧
    canReportFailure git_tree_entry_set_id_ret = false ∧
    canReportFailure git_tree_entry_set_name_ret = false ∧
    canReportFailure git_tree_entry_set_attributes_ret = false :=
  ⟨rfl, rfl, rfl, rfl, rfl, rfl⟩

/-- C4 as stated is false at this concrete input: the buffer writes the
mode as "0100644" with a leading zero, which no canonical encoding
produces (encode emits minimal octal), yet decode accepts it instead of
rejecting it as `Corrupt`. -/
theorem C4_counterexample :
    decodeEntries ([48, 49, 48, 48, 54, 52, 52, 32, 97, 0] ++ List.replicate 20 1) =
      Except.ok [⟨[97], 33188, List.replicate 20 1⟩] ∧
    git_tree_encode [⟨[97], 33188, List.replicate 20 1⟩] ≠
      ([48, 49, 48, 48, 54, 52, 52, 32, 97, 0] ++ List.replicate 20 1) :=
  ⟨by decide, by decide⟩

/-- C4 amended: decode fails only with `Corrupt`; it rejects a record with
an empty name, a record whose null terminator never appears before buffer
end, and any record list with duplicate names or keys out of
non-decreasing order; a successful decode guarantees duplicate-free,
ordered names.  It does not, however, reject every non-canonical buffer:
zero-padded octal modes are accepted. -/
theorem C4_decode_rejections :
    (∀ (buf id : List Nat) (e : GitError),
      git_tree_decode buf id = Except.error e → e = GitError.Corrupt) ∧
    (∀ (good : List git_tree_entry) (m : Nat) (trail : List Nat),
      (∀ x ∈ good, entryOK x = true) → validMode m = true →
      decodeEntries (git_tree_encode good ++ (octalMinimal m ++ 32 :: 0 :: trail)) =
        Except.error GitError.Corrupt) ∧
    (∀ (good : List git_tree_entry) (m : Nat) (name : List Nat),
      (∀ x ∈ good, entryOK x = true) → validMode m = true →
      (∀ b ∈ name, (!(b == 0)) = true) →
      decodeEntries (git_tree_encode good ++ (octalMinimal m ++ 32 :: name)) =
        Except.error GitError.Corrupt) ∧
    (∀ (buf : List Nat) (l : List git_tree_entry),
      decodeRecords buf.length buf = Except.ok l →
      (nodup_names l = false ∨ keysSorted l = false) →
      decodeEntries buf = Except.error GitError.Corrupt) ∧
    (∀ (buf : List Nat) (l : List git_tree_entry),
      decodeEntries buf = Except.ok l →
      nodup_names l = true ∧ keysSorted l = true) := by
  refine ⟨?_, ?_, ?_, ?_, ?_⟩
  · intro buf id e h
    unfold git_tree_decode at h
    cases hd : decodeEntries buf with
    | error e2 =>
      simp only [hd] at h
      cases h
      exact decodeEntries_error_corrupt hd
    | ok l =>
      simp only [hd] at h
      cases h
  · intro good m trail hv hm
    have hne : octalMinimal m ++ 32 :: 0 :: trail ≠ [] := by simp
    exact decodeEntries_append_bad hv hne (parseRecord_empty_name hm trail)
  · intro good m name hv hm hnonul
    have hne : octalMinimal m ++ 32 :: name ≠ [] := by simp
    exact decodeEntries_append_bad hv hne (parseRecord_missing_nul hm hnonul)
  · intro buf l hrec hbad
    unfold decodeEntries
    simp only [hrec]
    rcases hbad with hb | hb <;> rw [if_neg (by simp [hb])]
  · intro buf l h
    unfold decodeEntries at h
    cases hrec : decodeRecords buf.length buf with
    | error e =>
      simp only [hrec] at h
      cases h
    | ok l2 =>
      simp only [hrec] at h
      by_cases hc : (nodup_names l2 && keysSorted l2) = true
      · rw [if_pos hc] at h
        cases h
        simpa [Bool.and_eq_true] using hc
      · rw [if_neg hc] at h
        cases h

/-- Witness for C4's amended statement: an empty-name record alone is
rejected, and scenario D's out-of-order two-record buffer is rejected. -/
theorem C4_decode_rejections_witness :
    decodeEntries (git_tree_encode [] ++ (octalMinimal 33188 ++ 32 :: 0 :: [])) =
      Except.error GitError.Corrupt ∧
    decodeEntries (git_tree_encode [⟨[98], 33188, List.replicate 20 1⟩,
        ⟨[97], 33188, List.replicate 20 2⟩]) =
      Except.error GitError.Corrupt := by
  constructor
  · exact C4_decode_rejections.2.1 [] 33188 []
      (fun x hx => absurd hx (List.not_mem_nil x)) (by decide)
  · exact C4_decode_rejections.2.2.2.1 _
      [⟨[98], 33188, List.replicate 20 1⟩, ⟨[97], 33188, List.replicate 20 2⟩]
      (by decide) (Or.inr (by decide))

/-- C5: `add_entry` validates the mode against the closed set and the name
against the non-empty, no-separator, no-null rule, fails on validation
failure, fails with `DuplicateName` when the name already exists (leaving
the entry count unchanged), and otherwise inserts at the position the
ordering rule dictates and succeeds. -/
theorem C5_add_entry_validation (t : git_tree) (id filename : List Nat) (attrs : Nat) :
    (validName filename = false ∨ validMode attrs = false →
      ∃ err, git_tree_add_entry t id filename attrs = Except.error err) ∧
    (validName filename = true → validMode attrs = true →
      (t.entries.any fun e => e.filename == filename) = true →
      git_tree_add_entry t id filename attrs = Except.error GitError.DuplicateName ∧
      git_tree_entrycount (applyOp (TreeMutation.add id filename attrs) t) =
        git_tree_entrycount t) ∧
    (validName filename = true → validMode attrs = true →
      (t.entries.any fun e => e.filename == filename) = false →
      ∃ t2, git_tree_add_entry t id filename attrs = Except.ok t2 ∧
        t2.entries = insertEntry ⟨filename, attrs, id⟩ t.entries ∧
        git_tree_entrycount t2 = git_tree_entrycount t + 1 ∧
        (treeWFb t.entries = true → treeWFb t2.entries = true)) := by
  refine ⟨?_, ?_, ?_⟩
  · intro hbad
    by_cases hn : validName filename = true
    · have hm : validMode attrs = false := by
        rcases hbad with hb | hb
        · rw [hn] at hb
          cases hb
        · exact hb
      refine ⟨GitError.InvalidMode, ?_⟩
      simp [git_tree_add_entry, hn, hm]
    · have hn2 : validName filename = false := by
        rw [Bool.not_eq_true] at hn
        exact hn
      refine ⟨GitError.InvalidArgument, ?_⟩
      simp [git_tree_add_entry, hn2]
  · intro hn hm hdup
    have herr : git_tree_add_entry t id filename attrs =
        Except.error GitError.DuplicateName := by
      simp [git_tree_add_entry, hn, hm, hdup]
    exact ⟨herr, by simp [applyOp, applyMutation, herr]⟩
  · intro hn hm hdup
    have hok : git_tree_add_entry t id filename attrs =
        Except.ok ⟨insertEntry ⟨filename, attrs, id⟩ t.entries, none, true⟩ := by
      simp [git_tree_add_entry, hn, hm, hdup]
    refine ⟨_, hok, rfl, ?_, fun hwf => treeWFb_add hwf hok⟩
    simp [git_tree_entrycount, length_insertEntry]

/-- Witness for C5 at concrete inputs: an invalid mode fails, a duplicate
name fails with `DuplicateName` leaving the count unchanged, and a fresh
valid name succeeds. -/
theorem C5_add_entry_validation_witness :
    (validName [97] = true ∧ validMode 7 = false) ∧
    (∃ err, git_tree_add_entry (⟨[⟨[97], 33188, List.replicate 20 1⟩], none, false⟩ : git_tree)
      (List.replicate 20 2) [97] 7 = Except.error err) ∧
    ((⟨[⟨[97], 33188, List.replicate 20 1⟩], none, false⟩ : git_tree).entries.any
      fun e => e.filename == [97]) = true ∧
    git_tree_add_entry (⟨[⟨[97], 33188, List.replicate 20 1⟩], none, false⟩ : git_tree)
      (List.replicate 20 2) [97] 33188 = Except.error GitError.DuplicateName ∧
    git_tree_entrycount (applyOp (TreeMutation.add (List.replicate 20 2) [97] 33188)
      (⟨[⟨[97], 33188, List.replicate 20 1⟩], none, false⟩ : git_tree)) =
      git_tree_entrycount (⟨[⟨[97], 33188, List.replicate 20 1⟩], none, false⟩ : git_tree) ∧
    (∃ t2, git_tree_add_entry (⟨[⟨[97], 33188, List.replicate 20 1⟩], none, false⟩ : git_tree)
      (List.replicate 20 2) [98] 33188 = Except.ok t2 ∧
      t2.entries = insertEntry ⟨[98], 33188, List.replicate 20 2⟩
        (⟨[⟨[97], 33188, List.replicate 20 1⟩], none, false⟩ : git_tree).entries ∧
      git_tree_entrycount t2 =
        git_tree_entrycount (⟨[⟨[97], 33188, List.replicate 20 1⟩], none, false⟩ : git_tree) + 1 ∧
      (treeWFb (⟨[⟨[97], 33188, List.replicate 20 1⟩], none, false⟩ : git_tree).entries = true →
        treeWFb t2.entries = true)) := by
  refine ⟨⟨by decide, by decide⟩, ?_, by decide, ?_, ?_, ?_⟩
  · exact (C5_add_entry_validation _ (List.replicate 20 2) [97] 7).1 (Or.inr (by decide))
  · exact ((C5_add_entry_validation _ (List.replicate 20 2) [97] 33188).2.1
      (by decide) (by decide) (by decide)).1
  · exact ((C5_add_entry_validation _ (List.replicate 20 2) [97] 33188).2.1
      (by decide) (by decide) (by decide)).2
  · exact (C5_add_entry_validation _ (List.replicate 20 2) [98] 33188).2.2
      (by decide) (by decide) (by decide)

/-- C7: every present entry is found by name; an absent name is
not-found; lookup by index succeeds exactly on `[0, entrycount)`. -/
theorem C7_lookup_correctness (t : git_tree) :
    (treeWFb t.entries = true →
      ∀ e ∈ t.entries, git_tree_entry_byname t e.filename = some e) ∧
    (∀ name : List Nat, (t.entries.all fun e => !(e.filename == name)) = true →
      git_tree_entry_byname t name = none) ∧
    (∀ i : Int, 0 ≤ i → i.toNat < t.entries.length →
      git_tree_entry_byindex t i = t.entries.get? i.toNat ∧
      ∃ e, git_tree_entry_byindex t i = some e) ∧
    (∀ i : Int, i < 0 ∨ (git_tree_entrycount t : Int) ≤ i →
      git_tree_entry_byindex t i = none) := by
  refine ⟨?_, ?_, ?_, ?_⟩
  · intro hwf e he
    exact find?_byname (treeWFb_iff.mp hwf).2.1 he
  · intro name hall
    unfold git_tree_entry_byname
    rw [List.find?_eq_none]
    intro x hx
    have hx2 := List.all_eq_true.mp hall x hx
    simp only [Bool.not_eq_true'] at hx2
    simp [hx2]
  · intro i h0 hl
    unfold git_tree_entry_byindex
    rw [if_pos h0]
    exact ⟨rfl, t.entries.get ⟨i.toNat, hl⟩, List.get?_eq_get hl⟩
  · intro i hbad
    unfold git_tree_entry_byindex
    rcases hbad with hb | hb
    · rw [if_neg (by omega)]
    · by_cases h0 : (0 : Int) ≤ i
      · rw [if_pos h0]
        refine List.get?_eq_none.mpr ?_
        unfold git_tree_entrycount at hb
        omega
      · rw [if_neg h0]

/-- Witness for C7 at a concrete two-entry tree. -/
theorem C7_lookup_correctness_witness :
    treeWFb (⟨[⟨[97], 33188, List.replicate 20 1⟩,
        ⟨[98], 33188, List.replicate 20 2⟩], none, false⟩ : git_tree).entries = true ∧
    git_tree_entry_byname (⟨[⟨[97], 33188, List.replicate 20 1⟩,
        ⟨[98], 33188, List.replicate 20 2⟩], none, false⟩ : git_tree) [98] =
      some ⟨[98], 33188, List.replicate 20 2⟩ ∧
    git_tree_entry_byname (⟨[⟨[97], 33188, List.replicate 20 1⟩,
        ⟨[98], 33188, List.replicate 20 2⟩], none, false⟩ : git_tree) [99] = none ∧
    git_tree_entry_byindex (⟨[⟨[97], 33188, List.replicate 20 1⟩,
        ⟨[98], 33188, List.replicate 20 2⟩], none, false⟩ : git_tree) 1 =
      some ⟨[98], 33188, List.replicate 20 2⟩ ∧
    git_tree_entry_byindex (⟨[⟨[97], 33188, List.replicate 20 1⟩,
        ⟨[98], 33188, List.replicate 20 2⟩], none, false⟩ : git_tree) 2 = none ∧
    git_tree_entry_byindex (⟨[⟨[97], 33188, List.replicate 20 1⟩,
        ⟨[98], 33188, List.replicate 20 2⟩], none, false⟩ : git_tree) (-1) = none := by
  refine ⟨by decide, ?_, ?_, by decide, ?_, ?_⟩
  · exact (C7_lookup_correctness _).1 (by decide) ⟨[98], 33188, List.replicate 20 2⟩
      (by decide)
  · exact (C7_lookup_correctness _).2.1 [99] (by decide)
  · exact (C7_lookup_correctness _).2.2.2 2 (Or.inr (by decide))
  · exact (C7_lookup_correctness _).2.2.2 (-1) (Or.inl (by decide))

/-- C8: removing a valid index removes exactly that entry, shifts higher
indices down by one and decreases the count by one; removing at index
`entrycount` fails with `NotFound` and changes nothing. -/
theorem C8_remove_byindex (t : git_tree) :
    (∀ i : Int, 0 ≤ i → i.toNat < t.entries.length →
      ∃ t2, git_tree_remove_entry_byindex t i = Except.ok t2 ∧
        t2.entries = t.entries.eraseIdx i.toNat ∧
        git_tree_entrycount t2 + 1 = git_tree_entrycount t ∧
        (∀ j : Nat, j < i.toNat → t2.entries.get? j = t.entries.get? j) ∧
        (∀ j : Nat, i.toNat ≤ j → t2.entries.get? j = t.entries.get? (j + 1))) ∧
    (git_tree_remove_entry_byindex t (git_tree_entrycount t : Int) =
        Except.error GitError.NotFound ∧
      applyOp (TreeMutation.removeIdx (git_tree_entrycount t : Int)) t = t) := by
  constructor
  · intro i h0 hl
    have hok : git_tree_remove_entry_byindex t i =
        Except.ok ⟨t.entries.eraseIdx i.toNat, none, true⟩ := by
      unfold git_tree_remove_entry_byindex
      rw [if_pos ⟨h0, hl⟩]
    refine ⟨_, hok, rfl, ?_, ?_, ?_⟩
    · simp only [git_tree_entrycount]
      exact length_eraseIdx_lt t.entries i.toNat hl
    · intro j hj
      exact get?_eraseIdx_lt t.entries i.toNat j hj
    · intro j hj
      exact get?_eraseIdx_ge t.entries i.toNat j hl hj
  · have hcond : ¬(0 ≤ (git_tree_entrycount t : Int) ∧
        (git_tree_entrycount t : Int).toNat < t.entries.length) := by
      unfold git_tree_entrycount
      omega
    have herr : git_tree_remove_entry_byindex t (git_tree_entrycount t : Int) =
        Except.error GitError.NotFound := by
      unfold git_tree_remove_entry_byindex
      rw [if_neg hcond]
    exact ⟨herr, by simp [applyOp, applyMutation, herr]⟩

/-- Witness for C8 at a concrete two-entry tree, removing index 0 and
failing at index `entrycount`. -/
theorem C8_remove_byindex_witness :
    (∃ t2, git_tree_remove_entry_byindex (⟨[⟨[97], 33188, List.replicate 20 1⟩,
        ⟨[98], 33188, List.replicate 20 2⟩], none, false⟩ : git_tree) 0 = Except.ok t2 ∧
      t2.entries = ([⟨[97], 33188, List.replicate 20 1⟩,
        (⟨[98], 33188, List.replicate 20 2⟩ : git_tree_entry)]).eraseIdx 0 ∧
      git_tree_entrycount t2 + 1 =
        git_tree_entrycount (⟨[⟨[97], 33188, List.replicate 20 1⟩,
          ⟨[98], 33188, List.replicate 20 2⟩], none, false⟩ : git_tree) ∧
      (∀ j : Nat, j < 0 → t2.entries.get? j =
        (⟨[⟨[97], 33188, List.replicate 20 1⟩,
          ⟨[98], 33188, List.replicate 20 2⟩], none, false⟩ : git_tree).entries.get? j) ∧
      (∀ j : Nat, 0 ≤ j → t2.entries.get? j =
        (⟨[⟨[97], 33188, List.replicate 20 1⟩,
          ⟨[98], 33188, List.replicate 20 2⟩], none, false⟩ : git_tree).entries.get? (j + 1))) ∧
    git_tree_remove_entry_byindex (⟨[⟨[97], 33188, List.replicate 20 1⟩,
        ⟨[98], 33188, List.replicate 20 2⟩], none, false⟩ : git_tree) 2 =
      Except.error GitError.NotFound ∧
    applyOp (TreeMutation.removeIdx 2) (⟨[⟨[97], 33188, List.replicate 20 1⟩,
        ⟨[98], 33188, List.replicate 20 2⟩], none, false⟩ : git_tree) =
      (⟨[⟨[97], 33188, List.replicate 20 1⟩,
        ⟨[98], 33188, List.replicate 20 2⟩], none, false⟩ : git_tree) := by
  refine ⟨?_, ?_, ?_⟩
  · exact (C8_remove_byindex _).1 0 (by decide) (by decide)
  · exact (C8_remove_byindex (⟨[⟨[97], 33188, List.replicate 20 1⟩,
      ⟨[98], 33188, List.replicate 20 2⟩], none, false⟩ : git_tree)).2.1
  · exact (C8_remove_byindex (⟨[⟨[97], 33188, List.replicate 20 1⟩,
      ⟨[98], 33188, List.replicate 20 2⟩], none, false⟩ : git_tree)).2.2

end GitSpec
